import Mathlib

/-!
Verification of the MCP server toggle tool (`src/index.mjs`).

The program reads a JSON document (`~/.claude.json`), builds a flat list of
toggle-able server entries from four mappings (global active, global disabled,
per-project active, per-project disabled), lets the user flip `enabled` flags
with keystrokes, and on confirm writes the partitioned mappings back.

JSON objects are embedded as association lists `List (String × Jval)` in key
order; a JavaScript object has no duplicate keys, which appears below as the
`objOk` / `DocOk` hypotheses (`Nodup` on the key list).  Configuration payloads
are opaque `Jval` values, never inspected, exactly as in the source.
-/

/-- An opaque JSON value (server configurations are never inspected). -/
inductive Jval where
  | null : Jval
  | bool : Bool → Jval
  | num : Int → Jval
  | str : String → Jval
  | arr : List Jval → Jval
  | obj : List (String × Jval) → Jval

/-- One entry of `claudeJson.projects`: its two server mappings (either may be
absent) plus all other keys, which the writer leaves untouched. -/
structure ProjectEntry where
  mcpServers : Option (List (String × Jval)) := none
  disabledMcpServers : Option (List (String × Jval)) := none
  rest : List (String × Jval) := []

/-- The parsed `~/.claude.json` document: the two global server mappings, the
`projects` table, and all other top-level keys. -/
structure Doc where
  mcpServers : Option (List (String × Jval)) := none
  disabledMcpServers : Option (List (String × Jval)) := none
  projects : Option (List (String × ProjectEntry)) := none
  rest : List (String × Jval) := []

/-- One toggle-able item: `{ name, source, enabled, config }` as pushed by
`loadServers`.  `source` is the literal string `"user"` or `"local"`, as in
the JavaScript. -/
structure Server where
  name : String
  source : String
  enabled : Bool
  config : Jval

/-- `process.cwd().replace(/\\/g, '/')`: normalize backslashes to slashes
(written on the character list so the kernel can evaluate it). -/
def normPath (p : String) : String :=
  String.mk (p.data.map (fun ch => if ch = '\\' then '/' else ch))

/-- JavaScript property assignment `o[k] = v` on an object rendered as an
association list: replace the value in place if the key exists, else append. -/
def objSet : List (String × Jval) → String → Jval → List (String × Jval)
  | [], k, v => [(k, v)]
  | (k', v') :: rest, k, v =>
      if k' == k then (k', v) :: rest else (k', v') :: objSet rest k v

/-- The mutable state threaded through `loadServers`: the `servers` array and
the `seen` set (kept as the list of pushed names, in push order). -/
structure LoadState where
  servers : List Server
  seen : List String

/-- `servers.push({...}); seen.add(name)`. -/
def LoadState.push (st : LoadState) (s : Server) : LoadState :=
  ⟨st.servers ++ [s], st.seen ++ [s.name]⟩

/-- The first `loadServers` loop (user-scoped active servers): push every key,
with no `seen` check. -/
def pushAll (source : String) (enabled : Bool) (st : LoadState) :
    List (String × Jval) → LoadState
  | [] => st
  | (name, config) :: rest =>
      pushAll source enabled (st.push ⟨name, source, enabled, config⟩) rest

/-- The remaining three `loadServers` loops: push a key only when its name has
not been seen yet. -/
def pushNew (source : String) (enabled : Bool) (st : LoadState) :
    List (String × Jval) → LoadState
  | [] => st
  | (name, config) :: rest =>
      if name ∈ st.seen then pushNew source enabled st rest
      else pushNew source enabled (st.push ⟨name, source, enabled, config⟩) rest

/-- `claudeJson.projects?.[cwd]` for the normalized cwd. -/
def projectEntry (doc : Doc) (cwd : String) : Option ProjectEntry :=
  List.lookup (normPath cwd) (doc.projects.getD [])

/-- `loadServers` after the user-scoped active loop. -/
def loadStage1 (doc : Doc) : LoadState :=
  match doc.mcpServers with
  | some m => pushAll "user" true ⟨[], []⟩ m
  | none => ⟨[], []⟩

/-- `loadServers` after the user-scoped disabled loop. -/
def loadStage2 (doc : Doc) : LoadState :=
  match doc.disabledMcpServers with
  | some m => pushNew "user" false (loadStage1 doc) m
  | none => loadStage1 doc

/-- `loadServers` after the local-scoped active loop. -/
def loadStage3 (doc : Doc) (cwd : String) : LoadState :=
  match projectEntry doc cwd with
  | some pe =>
      match pe.mcpServers with
      | some m => pushNew "local" true (loadStage2 doc) m
      | none => loadStage2 doc
  | none => loadStage2 doc

/-- `loadServers` after the local-scoped disabled loop. -/
def loadStage4 (doc : Doc) (cwd : String) : LoadState :=
  match projectEntry doc cwd with
  | some pe =>
      match pe.disabledMcpServers with
      | some m => pushNew "local" false (loadStage3 doc cwd) m
      | none => loadStage3 doc cwd
  | none => loadStage3 doc cwd

/-- `loadServers()`: walk the four mappings in order, deduplicating by name
with one shared `seen` set, and return the server list. -/
def loadServers (doc : Doc) (cwd : String) : List Server :=
  (loadStage4 doc cwd).servers

/-- The `saveState` rebuild loop for one scope: walk the (already
source-filtered) servers, assigning each `name ↦ config` into the active or
the disabled object according to `enabled`. -/
def partitionServers : List Server → List (String × Jval) → List (String × Jval) →
    List (String × Jval) × List (String × Jval)
  | [], act, dis => (act, dis)
  | s :: rest, act, dis =>
      if s.enabled then partitionServers rest (objSet act s.name s.config) dis
      else partitionServers rest act (objSet dis s.name s.config)

/-- Replace the value stored under `k` (the JavaScript in-place mutation of
`claudeJson.projects[cwd]`); keys and order are unchanged. -/
def setProj : List (String × ProjectEntry) → String → ProjectEntry →
    List (String × ProjectEntry)
  | [], _, _ => []
  | (k', v') :: rest, k, pe =>
      if k' == k then (k', pe) :: rest else (k', v') :: setProj rest k pe

/-- The first `saveState` block: rebuild the user-scoped mappings, assigning
the active mapping unconditionally and deleting an empty disabled mapping. -/
def saveGlobal (servers : List Server) (doc : Doc) : Doc :=
  let userPart := partitionServers (servers.filter (fun s => s.source == "user")) [] []
  { doc with
    mcpServers := some userPart.1,
    disabledMcpServers := if userPart.2.length > 0 then some userPart.2 else none }

/-- The second `saveState` block: rebuild the local-scoped mappings, but only
when a project entry for the cwd exists in the document. -/
def saveLocal (servers : List Server) (doc : Doc) (cwd : String) : Doc :=
  match projectEntry doc cwd with
  | none => doc
  | some pe =>
      let localPart := partitionServers (servers.filter (fun s => s.source == "local")) [] []
      let pe' : ProjectEntry :=
        { pe with
          mcpServers := some localPart.1,
          disabledMcpServers := if localPart.2.length > 0 then some localPart.2 else none }
      { doc with projects := some (setProj (doc.projects.getD []) (normPath cwd) pe') }

/-- `saveState(servers)`: rebuild the user-scoped mappings unconditionally,
rebuild the local-scoped mappings only when a project entry for the cwd
exists, and leave every other key intact. -/
def saveState (servers : List Server) (doc : Doc) (cwd : String) : Doc :=
  saveLocal servers (saveGlobal servers doc) cwd

/-- The interactive session state: the cursor and the in-memory server list.
The cursor is an `Int` because the JavaScript update
`(cursor - 1 + servers.length) % servers.length` computes in signed numbers;
both operands are nonnegative on every reachable state, where JavaScript `%`
agrees with `Int.emod`. -/
structure Sess where
  cursor : Int
  servers : List Server

/-- `servers[cursor].enabled = !servers[cursor].enabled` (the cursor is a
valid index on every reachable state). -/
def toggleCursor (ss : List Server) (i : Int) : List Server :=
  match ss[i.toNat]? with
  | some s => ss.set i.toNat { s with enabled := !s.enabled }
  | none => ss

/-- One step of the `process.stdin.on('data', ...)` handler: returns the new
session state, plus `some save` when the key ends the session via
`cleanup(save)` and `none` when the loop keeps running. -/
def handleKey (st : Sess) (key : String) : Sess × Option Bool :=
  if key == "\x03" then (st, some false)
  else if key == "\x1b" && key.length == 1 then (st, some false)
  else if key == "\r" || key == "\n" then (st, some true)
  else if key == "\x1b[A" || key == "k" then
    ({ st with cursor := (st.cursor - 1 + (st.servers.length : Int)) % (st.servers.length : Int) }, none)
  else if key == "\x1b[B" || key == "j" then
    ({ st with cursor := (st.cursor + 1) % (st.servers.length : Int) }, none)
  else if key == " " then
    ({ st with servers := toggleCursor st.servers st.cursor }, none)
  else if key == "a" then
    ({ st with servers := st.servers.map (fun s => { s with enabled := true }) }, none)
  else if key == "n" then
    ({ st with servers := st.servers.map (fun s => { s with enabled := false }) }, none)
  else (st, none)

/-- Run the keystroke handler over a sequence of keys, one event at a time,
stopping at the first key that ends the session. -/
def processKeys (st : Sess) : List String → Sess × Option Bool
  | [] => (st, none)
  | k :: rest =>
      match handleKey st k with
      | (st', some b) => (st', some b)
      | (st', none) => processKeys st' rest

/-- `cleanup(save)`: write the file through `saveState` only when `save` is
true.  Returns the resulting on-disk document and whether the writer ran. -/
def cleanup (save : Bool) (servers : List Server) (doc : Doc) (cwd : String) :
    Doc × Bool :=
  if save then (saveState servers doc cwd, true) else (doc, false)

/-- A whole interactive session on a given document: load, feed the keys, and
on termination run `cleanup`.  `none` when the key sequence never ends the
session (the process would still be waiting for input). -/
def runSession (doc : Doc) (cwd : String) (keys : List String) :
    Option (Doc × Bool) :=
  match processKeys ⟨0, loadServers doc cwd⟩ keys with
  | (st, some save) => some (cleanup save st.servers doc cwd)
  | (_, none) => none

/-- The program's exit behaviour.  `input` is the parse result of the config
file (`none` = unreadable or invalid JSON), `isTTY` whether stdin is an
interactive terminal.  Returns `some code` when the run terminates within the
given keys, in the order the source checks: unreadable file (exit 1 inside
`loadServers`), empty list (exit 1), no TTY (exit 1 inside `start`), then the
loop, whose `cleanup` always exits 0. -/
def runMain (input : Option Doc) (isTTY : Bool) (cwd : String)
    (keys : List String) : Option Nat :=
  match input with
  | none => some 1
  | some doc =>
      let servers := loadServers doc cwd
      if servers.length == 0 then some 1
      else if !isTTY then some 1
      else
        match processKeys ⟨0, servers⟩ keys with
        | (_, some _) => some 0
        | (_, none) => none

-- ── Spec-side helper definitions (used only to state the claims) ──

/-- The global active mapping of a document (empty when absent). -/
def gActive (doc : Doc) : List (String × Jval) := doc.mcpServers.getD []

/-- The global disabled mapping of a document (empty when absent). -/
def gDisabled (doc : Doc) : List (String × Jval) := doc.disabledMcpServers.getD []

/-- The local active mapping for a cwd (empty when absent). -/
def lActive (doc : Doc) (cwd : String) : List (String × Jval) :=
  ((projectEntry doc cwd).bind (fun pe => pe.mcpServers)).getD []

/-- The local disabled mapping for a cwd (empty when absent). -/
def lDisabled (doc : Doc) (cwd : String) : List (String × Jval) :=
  ((projectEntry doc cwd).bind (fun pe => pe.disabledMcpServers)).getD []

/-- A JSON object has no duplicate keys. -/
abbrev objOk (m : List (String × Jval)) : Prop := (m.map Prod.fst).Nodup

/-- Well-formedness of a document as produced by `JSON.parse`: each of the
four server mappings has duplicate-free keys. -/
abbrev DocOk (doc : Doc) (cwd : String) : Prop :=
  objOk (gActive doc) ∧ objOk (gDisabled doc) ∧
    objOk (lActive doc cwd) ∧ objOk (lDisabled doc cwd)

/-- Two JSON objects agree as finite maps (same value at every key, regardless
of key order). -/
def mapsEquiv (m₁ m₂ : List (String × Jval)) : Prop :=
  ∀ k, List.lookup k m₁ = List.lookup k m₂

/-- The identity of a server entry apart from its toggle flag. -/
def sig (s : Server) : String × String × Jval := (s.name, s.source, s.config)

/-- How many loaded entries carry a given name. -/
def countName (n : String) (ss : List Server) : Nat :=
  (ss.filter (fun s => s.name == n)).length

/-- The active mapping that `saveState` writes for one scope: the scope's
entries whose flag is on, as `name ↦ config`, in list order. -/
def scopeActive (ss : List Server) (src : String) : List (String × Jval) :=
  ((ss.filter (fun s => s.source == src)).filter (fun s => s.enabled)).map
    (fun s => (s.name, s.config))

/-- The disabled mapping that `saveState` writes for one scope: the scope's
entries whose flag is off, as `name ↦ config`, in list order. -/
def scopeDisabled (ss : List Server) (src : String) : List (String × Jval) :=
  ((ss.filter (fun s => s.source == src)).filter (fun s => !s.enabled)).map
    (fun s => (s.name, s.config))

/-- The server entries a source mapping contributes when none of its keys is
suppressed by the `seen` set. -/
def entriesOf (m : List (String × Jval)) (src : String) (en : Bool) : List Server :=
  m.map (fun p => ⟨p.1, src, en, p.2⟩)

/-- Round-trip property of claim C1: loading, toggling nothing and saving
leaves all four scope mappings pointwise equal as finite maps. -/
def roundTripOK (doc : Doc) (cwd : String) : Prop :=
  mapsEquiv (gActive doc) (gActive (saveState (loadServers doc cwd) doc cwd)) ∧
    mapsEquiv (gDisabled doc) (gDisabled (saveState (loadServers doc cwd) doc cwd)) ∧
    mapsEquiv (lActive doc cwd) (lActive (saveState (loadServers doc cwd) doc cwd) cwd) ∧
    mapsEquiv (lDisabled doc cwd) (lDisabled (saveState (loadServers doc cwd) doc cwd) cwd)

/-- The four source key lists are jointly duplicate-free: each mapping has
unique keys and no name occurs in two different mappings. -/
abbrev sourcesSeparated (doc : Doc) (cwd : String) : Prop :=
  ((gActive doc).map Prod.fst ++ (gDisabled doc).map Prod.fst ++
    (lActive doc cwd).map Prod.fst ++ (lDisabled doc cwd).map Prod.fst).Nodup

/-- The in-memory server list after loading the document and feeding an
arbitrary key sequence to the input handler. -/
def sessServers (doc : Doc) (cwd : String) (keys : List String) : List Server :=
  ((processKeys ⟨0, loadServers doc cwd⟩ keys).1).servers

/-- The in-memory list after a session followed by the all-on key `a`. -/
def allOnServers (doc : Doc) (cwd : String) (keys : List String) : List Server :=
  ((handleKey (processKeys ⟨0, loadServers doc cwd⟩ keys).1 "a").1).servers

/-- A document in which the name `a` occurs in both global mappings; the
loader keeps only the active occurrence, so saving drops the disabled one. -/
def docC1x : Doc :=
  { mcpServers := some [("a", Jval.num 1)],
    disabledMcpServers := some [("a", Jval.num 2)] }

/-- A document in which `n` is globally disabled and also occurs in both
local mappings of the project entry for `/p`. -/
def docC3x : Doc :=
  { disabledMcpServers := some [("n", Jval.num 0)],
    projects := some [("/p", { mcpServers := some [("n", Jval.num 1)],
                               disabledMcpServers := some [("n", Jval.num 2)] })] }

/-- Claim C3 as stated, instantiated at one scope-pair of a document: when a
name occurs in both the scope's active and disabled source mapping, the
loader creates exactly one entry for it, enabled, with the active mapping's
config. -/
def claimDedupActiveWins (doc : Doc) (cwd : String)
    (active disabledSrc : List (String × Jval)) (n : String) : Prop :=
  n ∈ active.map Prod.fst → n ∈ disabledSrc.map Prod.fst →
    countName n (loadServers doc cwd) = 1 ∧
    ∀ s ∈ loadServers doc cwd, s.name = n →
      s.enabled = true ∧ List.lookup n active = some s.config

/-- The document of the C7 scenario:
`{"mcpServers":{"a":{"x":1}},"_disabledMcpServers":{"b":{"y":2}}}`. -/
def docC7 : Doc :=
  { mcpServers := some [("a", Jval.obj [("x", Jval.num 1)])],
    disabledMcpServers := some [("b", Jval.obj [("y", Jval.num 2)])] }

-- ── Basic facts about the writer's structure ──

theorem saveGlobal_projects (servers : List Server) (doc : Doc) :
    (saveGlobal servers doc).projects = doc.projects := rfl

theorem projectEntry_saveGlobal (servers : List Server) (doc : Doc) (cwd : String) :
    projectEntry (saveGlobal servers doc) cwd = projectEntry doc cwd := rfl

theorem saveLocal_of_none (servers : List Server) (doc : Doc) (cwd : String)
    (h : projectEntry doc cwd = none) : saveLocal servers doc cwd = doc := by
  unfold saveLocal
  rw [h]

-- ── C4: saving without a project entry leaves `projects` untouched ──

/-- C4: when the (re-read) document has no project entry for the cwd, the
writer changes nothing under `projects`: local-scope toggles are dropped and
no project entry is created. -/
theorem save_no_project_entry (servers : List Server) (doc : Doc) (cwd : String)
    (h : projectEntry doc cwd = none) :
    (saveState servers doc cwd).projects = doc.projects ∧
      projectEntry (saveState servers doc cwd) cwd = none := by
  have h2 : projectEntry (saveGlobal servers doc) cwd = none := by
    rw [projectEntry_saveGlobal]; exact h
  unfold saveState
  rw [saveLocal_of_none _ _ _ h2]
  exact ⟨rfl, h2⟩

theorem save_no_project_entry_witness :
    (saveState [⟨"a", "user", true, Jval.null⟩] { mcpServers := some [("a", Jval.null)] } "/p").projects
      = ({ mcpServers := some [("a", Jval.null)] } : Doc).projects :=
  (save_no_project_entry [⟨"a", "user", true, Jval.null⟩]
    { mcpServers := some [("a", Jval.null)] } "/p" rfl).1

-- ── C5: cancelling never invokes the writer ──

/-- C5: a session that ends in cancel (Ctrl-C or lone ESC) never calls
`saveState`; the resulting on-disk document is exactly the original one and
the writer-invoked flag is `false`, regardless of the toggles made. -/
theorem cancel_no_write (doc : Doc) (cwd : String) (keys : List String)
    (st : Sess) (h : processKeys ⟨0, loadServers doc cwd⟩ keys = (st, some false)) :
    runSession doc cwd keys = some (doc, false) := by
  unfold runSession
  rw [h]
  rfl

theorem cancel_no_write_witness :
    runSession { mcpServers := some [("a", Jval.null)] } "/p" [" ", "\x1b"] =
      some ({ mcpServers := some [("a", Jval.null)] }, false) :=
  cancel_no_write { mcpServers := some [("a", Jval.null)] } "/p" [" ", "\x1b"]
    ⟨0, [⟨"a", "user", false, Jval.null⟩]⟩ rfl

-- ── C7: the concrete load/toggle/save scenario ──

/-- C7: on `docC7` with a cwd that has no project entry, the loader yields
exactly `[{a, user, enabled}, {b, user, disabled}]` in that order, and
toggling `a` off (space on cursor 0) then saving (enter) yields
`{"mcpServers":{},"_disabledMcpServers":{"a":{"x":1},"b":{"y":2}}}`. -/
theorem scenario_toggle_a_off :
    loadServers docC7 "/p" =
      [⟨"a", "user", true, Jval.obj [("x", Jval.num 1)]⟩,
       ⟨"b", "user", false, Jval.obj [("y", Jval.num 2)]⟩] ∧
    runSession docC7 "/p" [" ", "\r"] =
      some ({ mcpServers := some [],
              disabledMcpServers := some [("a", Jval.obj [("x", Jval.num 1)]),
                                          ("b", Jval.obj [("y", Jval.num 2)])] },
            true) :=
  ⟨rfl, rfl⟩

-- ── C8: exit codes ──

/-- C8: the run exits with code 1 exactly when the file is unreadable, the
server list is empty, or stdin is not a TTY — all checked before the loop;
a run that reaches the loop and terminates (by save or cancel) exits 0. -/
theorem exit_codes (input : Option Doc) (isTTY : Bool) (cwd : String)
    (keys : List String) :
    (runMain input isTTY cwd keys = some 1 ↔
      (input = none ∨ ∃ d, input = some d ∧ (loadServers d cwd = [] ∨ isTTY = false)))
    ∧ (∀ d, input = some d → loadServers d cwd ≠ [] → isTTY = true →
        (((processKeys ⟨0, loadServers d cwd⟩ keys).2.isSome →
            runMain input isTTY cwd keys = some 0)
          ∧ ((processKeys ⟨0, loadServers d cwd⟩ keys).2 = none →
            runMain input isTTY cwd keys = none))) := by
  constructor
  · cases input with
    | none => simp [runMain]
    | some d =>
        by_cases hempty : loadServers d cwd = []
        · simp [runMain, hempty]
        · cases isTTY with
          | false => simp [runMain, List.length_eq_zero, hempty]
          | true =>
              rcases hp : processKeys ⟨0, loadServers d cwd⟩ keys with ⟨st, b⟩
              cases b with
              | none => simp [runMain, List.length_eq_zero, hempty, hp]
              | some sv => simp [runMain, List.length_eq_zero, hempty, hp]
  · intro d hd hne htty
    subst hd
    cases htty
    rcases hp : processKeys ⟨0, loadServers d cwd⟩ keys with ⟨st, b⟩
    cases b with
    | none => simp [runMain, List.length_eq_zero, hne, hp]
    | some sv => simp [runMain, List.length_eq_zero, hne, hp]

theorem exit_codes_witness :
    runMain (some { mcpServers := some [("a", Jval.null)] }) true "/p" ["\r"] = some 0 := by
  have h := (exit_codes (some { mcpServers := some [("a", Jval.null)] }) true "/p" ["\r"]).2
    { mcpServers := some [("a", Jval.null)] } rfl (List.cons_ne_nil _ _) rfl
  exact h.1 rfl

-- ── C9: cursor wraparound ──

/-- C9: on a non-empty list of length `n` with the cursor at `i ∈ [0, n)`, a
move-up key (`↑` or `k`) sets the cursor to `(i - 1 + n) % n` and a move-down
key (`↓` or `j`) sets it to `(i + 1) % n`; both results are valid indices. -/
theorem cursor_wraparound (ss : List Server) (i : Int)
    (hn : 0 < ss.length) (h0 : 0 ≤ i) (hi : i < (ss.length : Int)) :
    ((handleKey ⟨i, ss⟩ "k").1.cursor = (i - 1 + (ss.length : Int)) % (ss.length : Int)
      ∧ (handleKey ⟨i, ss⟩ "\x1b[A").1.cursor = (i - 1 + (ss.length : Int)) % (ss.length : Int)
      ∧ (handleKey ⟨i, ss⟩ "j").1.cursor = (i + 1) % (ss.length : Int)
      ∧ (handleKey ⟨i, ss⟩ "\x1b[B").1.cursor = (i + 1) % (ss.length : Int))
    ∧ (0 ≤ (handleKey ⟨i, ss⟩ "k").1.cursor
      ∧ (handleKey ⟨i, ss⟩ "k").1.cursor < (ss.length : Int))
    ∧ (0 ≤ (handleKey ⟨i, ss⟩ "j").1.cursor
      ∧ (handleKey ⟨i, ss⟩ "j").1.cursor < (ss.length : Int)) := by
  have hzpos : (0 : Int) < (ss.length : Int) := by exact_mod_cast hn
  have hzne : (ss.length : Int) ≠ 0 := ne_of_gt hzpos
  refine ⟨⟨rfl, rfl, rfl, rfl⟩, ⟨?_, ?_⟩, ⟨?_, ?_⟩⟩
  · exact Int.emod_nonneg _ hzne
  · exact Int.emod_lt_of_pos _ hzpos
  · exact Int.emod_nonneg _ hzne
  · exact Int.emod_lt_of_pos _ hzpos

theorem cursor_wraparound_witness :
    (handleKey ⟨0, [⟨"a", "user", true, Jval.null⟩]⟩ "k").1.cursor = 0 := by
  have h := cursor_wraparound [⟨"a", "user", true, Jval.null⟩] 0
    (by decide) (by decide) (by decide)
  simpa using h.1.1

-- ── Lemmas about the `loadServers` loops ──

theorem pushAll_eq (src : String) (en : Bool) (m : List (String × Jval))
    (st : LoadState) :
    pushAll src en st m = ⟨st.servers ++ entriesOf m src en, st.seen ++ m.map Prod.fst⟩ := by
  induction m generalizing st with
  | nil => simp [pushAll, entriesOf]
  | cons p rest ih =>
      cases p with
      | mk name config =>
          simp [pushAll, entriesOf, ih, LoadState.push, List.append_assoc]


theorem pushNew_cons_seen (src : String) (en : Bool) (name : String) (config : Jval)
    (rest : List (String × Jval)) (st : LoadState) (hm : name ∈ st.seen) :
    pushNew src en st ((name, config) :: rest) = pushNew src en st rest := by
  simp [pushNew, hm]

theorem pushNew_cons_new (src : String) (en : Bool) (name : String) (config : Jval)
    (rest : List (String × Jval)) (st : LoadState) (hm : name ∉ st.seen) :
    pushNew src en st ((name, config) :: rest) =
      pushNew src en (st.push ⟨name, src, en, config⟩) rest := by
  simp [pushNew, hm]

theorem pushNew_seen_mem (src : String) (en : Bool) (m : List (String × Jval))
    (x : String) : ∀ st : LoadState,
    (x ∈ (pushNew src en st m).seen ↔ x ∈ st.seen ∨ x ∈ m.map Prod.fst) := by
  induction m with
  | nil => intro st; simp [pushNew]
  | cons p rest ih =>
      intro st
      cases p with
      | mk name config =>
          by_cases hm : name ∈ st.seen
          · rw [pushNew_cons_seen src en name config rest st hm, ih st]
            have habs : x = name → x ∈ st.seen := fun h => h ▸ hm
            simp only [List.map_cons, List.mem_cons]
            tauto
          · rw [pushNew_cons_new src en name config rest st hm, ih _]
            simp only [LoadState.push, List.map_cons, List.mem_cons, List.mem_append,
              List.mem_singleton]
            tauto

theorem pushNew_seen_names (src : String) (en : Bool) (m : List (String × Jval)) :
    ∀ st : LoadState, st.seen = st.servers.map Server.name →
    (pushNew src en st m).seen = (pushNew src en st m).servers.map Server.name := by
  induction m with
  | nil => intro st h; simpa [pushNew] using h
  | cons p rest ih =>
      intro st h
      cases p with
      | mk name config =>
          by_cases hm : name ∈ st.seen
          · rw [pushNew_cons_seen src en name config rest st hm]
            exact ih st h
          · rw [pushNew_cons_new src en name config rest st hm]
            exact ih _ (by simp [LoadState.push, h])

theorem pushNew_seen_nodup (src : String) (en : Bool) (m : List (String × Jval)) :
    ∀ st : LoadState, st.seen.Nodup → (pushNew src en st m).seen.Nodup := by
  induction m with
  | nil => intro st h; simpa [pushNew] using h
  | cons p rest ih =>
      intro st h
      cases p with
      | mk name config =>
          by_cases hm : name ∈ st.seen
          · rw [pushNew_cons_seen src en name config rest st hm]
            exact ih st h
          · rw [pushNew_cons_new src en name config rest st hm]
            refine ih _ ?_
            simp [LoadState.push, List.nodup_append, h, hm]

theorem pushNew_mono (src : String) (en : Bool) (m : List (String × Jval)) :
    ∀ st : LoadState, ∃ t, (pushNew src en st m).servers = st.servers ++ t := by
  induction m with
  | nil => intro st; exact ⟨[], by simp [pushNew]⟩
  | cons p rest ih =>
      intro st
      cases p with
      | mk name config =>
          by_cases hm : name ∈ st.seen
          · rw [pushNew_cons_seen src en name config rest st hm]
            exact ih st
          · rw [pushNew_cons_new src en name config rest st hm]
            obtain ⟨t, ht⟩ := ih (st.push ⟨name, src, en, config⟩)
            refine ⟨⟨name, src, en, config⟩ :: t, ?_⟩
            rw [ht]
            simp [LoadState.push]

theorem pushNew_mem (src : String) (en : Bool) (m : List (String × Jval))
    (s : Server) : ∀ st : LoadState, s ∈ (pushNew src en st m).servers →
    s ∈ st.servers ∨
      (s.source = src ∧ s.enabled = en ∧ s.name ∉ st.seen ∧ (s.name, s.config) ∈ m) := by
  induction m with
  | nil => intro st h; left; simpa [pushNew] using h
  | cons p rest ih =>
      intro st h
      cases p with
      | mk name config =>
          by_cases hm : name ∈ st.seen
          · rw [pushNew_cons_seen src en name config rest st hm] at h
            rcases ih st h with h1 | h2
            · exact Or.inl h1
            · exact Or.inr ⟨h2.1, h2.2.1, h2.2.2.1, List.mem_cons_of_mem _ h2.2.2.2⟩
          · rw [pushNew_cons_new src en name config rest st hm] at h
            rcases ih _ h with h1 | h2
            · rcases (show s ∈ st.servers ∨ s = ⟨name, src, en, config⟩ from by
                  simpa [LoadState.push] using h1) with hs | he
              · exact Or.inl hs
              · subst he
                exact Or.inr ⟨rfl, rfl, hm, List.mem_cons_self _ _⟩
            · refine Or.inr ⟨h2.1, h2.2.1, ?_, List.mem_cons_of_mem _ h2.2.2.2⟩
              intro hc
              exact h2.2.2.1 (by simp [LoadState.push, hc])

theorem pushNew_adds (src : String) (en : Bool) (m : List (String × Jval))
    (k : String) (v : Jval) :
    (m.map Prod.fst).Nodup → (k, v) ∈ m → ∀ st : LoadState, k ∉ st.seen →
    (⟨k, src, en, v⟩ : Server) ∈ (pushNew src en st m).servers := by
  induction m with
  | nil => intro _ hkv; cases hkv
  | cons p rest ih =>
      intro hnd hkv st hk
      cases p with
      | mk name config =>
          rw [List.map_cons] at hnd
          have hnd' : (rest.map Prod.fst).Nodup := (List.nodup_cons.mp hnd).2
          rcases List.mem_cons.mp hkv with heq | hmem
          · have h1 : k = name := congrArg Prod.fst heq
            have h2 : v = config := congrArg Prod.snd heq
            subst h1
            subst h2
            rw [pushNew_cons_new src en k v rest st hk]
            obtain ⟨t, ht⟩ := pushNew_mono src en rest (st.push ⟨k, src, en, v⟩)
            rw [ht]
            exact List.mem_append_left _ (by simp [LoadState.push])
          · have hkname : k ≠ name := by
              intro hc
              subst hc
              exact (List.nodup_cons.mp hnd).1 (List.mem_map.mpr ⟨(k, v), hmem, rfl⟩)
            by_cases hm : name ∈ st.seen
            · rw [pushNew_cons_seen src en name config rest st hm]
              exact ih hnd' hmem st hk
            · rw [pushNew_cons_new src en name config rest st hm]
              exact ih hnd' hmem _ (by simp [LoadState.push, hk, hkname])

-- ── Stage characterizations of `loadServers` ──

theorem loadStage1_eq (doc : Doc) :
    loadStage1 doc = ⟨entriesOf (gActive doc) "user" true, (gActive doc).map Prod.fst⟩ := by
  unfold loadStage1 gActive
  cases doc.mcpServers with
  | none => simp [entriesOf]
  | some m => simpa using pushAll_eq "user" true m ⟨[], []⟩

theorem loadStage2_eq (doc : Doc) :
    loadStage2 doc = pushNew "user" false (loadStage1 doc) (gDisabled doc) := by
  unfold loadStage2 gDisabled
  cases doc.disabledMcpServers with
  | none => simp [pushNew]
  | some m => simp

theorem loadStage3_eq (doc : Doc) (cwd : String) :
    loadStage3 doc cwd = pushNew "local" true (loadStage2 doc) (lActive doc cwd) := by
  unfold loadStage3 lActive
  cases h : projectEntry doc cwd with
  | none => simp [pushNew]
  | some pe =>
      cases h2 : pe.mcpServers with
      | none => simp [h2, pushNew]
      | some m => simp [h2]

theorem loadStage4_eq (doc : Doc) (cwd : String) :
    loadStage4 doc cwd = pushNew "local" false (loadStage3 doc cwd) (lDisabled doc cwd) := by
  unfold loadStage4 lDisabled
  cases h : projectEntry doc cwd with
  | none => simp [pushNew]
  | some pe =>
      cases h2 : pe.disabledMcpServers with
      | none => simp [h2, pushNew]
      | some m => simp [h2]

theorem entriesOf_mem (m : List (String × Jval)) (src : String) (en : Bool)
    (s : Server) (h : s ∈ entriesOf m src en) :
    s.source = src ∧ s.enabled = en ∧ (s.name, s.config) ∈ m := by
  unfold entriesOf at h
  obtain ⟨p, hp, rfl⟩ := List.mem_map.mp h
  exact ⟨rfl, rfl, hp⟩

theorem seen_names1 (doc : Doc) :
    (loadStage1 doc).seen = (loadStage1 doc).servers.map Server.name := by
  rw [loadStage1_eq]
  simp [entriesOf, List.map_map, Function.comp]

theorem seen_names4 (doc : Doc) (cwd : String) :
    (loadStage4 doc cwd).seen = (loadStage4 doc cwd).servers.map Server.name := by
  rw [loadStage4_eq]
  refine pushNew_seen_names _ _ _ _ ?_
  rw [loadStage3_eq]
  refine pushNew_seen_names _ _ _ _ ?_
  rw [loadStage2_eq]
  exact pushNew_seen_names _ _ _ _ (seen_names1 doc)

theorem seen_nodup4 (doc : Doc) (cwd : String) (h : objOk (gActive doc)) :
    (loadStage4 doc cwd).seen.Nodup := by
  rw [loadStage4_eq]
  refine pushNew_seen_nodup _ _ _ _ ?_
  rw [loadStage3_eq]
  refine pushNew_seen_nodup _ _ _ _ ?_
  rw [loadStage2_eq]
  refine pushNew_seen_nodup _ _ _ _ ?_
  rw [loadStage1_eq]
  exact h

/-- The loaded list never contains two entries with the same name. -/
theorem loadServers_names_nodup (doc : Doc) (cwd : String)
    (h : objOk (gActive doc)) :
    ((loadServers doc cwd).map Server.name).Nodup := by
  rw [loadServers, ← seen_names4]
  exact seen_nodup4 doc cwd h

theorem seen2_mem (doc : Doc) (x : String) :
    x ∈ (loadStage2 doc).seen ↔
      x ∈ (gActive doc).map Prod.fst ∨ x ∈ (gDisabled doc).map Prod.fst := by
  rw [loadStage2_eq, pushNew_seen_mem, loadStage1_eq]

theorem seen3_mem (doc : Doc) (cwd : String) (x : String) :
    x ∈ (loadStage3 doc cwd).seen ↔
      (x ∈ (gActive doc).map Prod.fst ∨ x ∈ (gDisabled doc).map Prod.fst) ∨
        x ∈ (lActive doc cwd).map Prod.fst := by
  rw [loadStage3_eq, pushNew_seen_mem, seen2_mem]

theorem stage2_sources (doc : Doc) (s : Server)
    (hs : s ∈ (loadStage2 doc).servers) : s.source = "user" := by
  rw [loadStage2_eq] at hs
  rcases pushNew_mem _ _ _ _ _ hs with h1 | h2
  · rw [loadStage1_eq] at h1
    exact (entriesOf_mem _ _ _ _ h1).1
  · exact h2.1

theorem lActive_projectEntry (doc : Doc) (cwd : String) (p : String × Jval)
    (h : p ∈ lActive doc cwd) : (projectEntry doc cwd).isSome := by
  unfold lActive at h
  cases hpe : projectEntry doc cwd with
  | none => rw [hpe] at h; simp at h
  | some pe => simp

theorem lDisabled_projectEntry (doc : Doc) (cwd : String) (p : String × Jval)
    (h : p ∈ lDisabled doc cwd) : (projectEntry doc cwd).isSome := by
  unfold lDisabled at h
  cases hpe : projectEntry doc cwd with
  | none => rw [hpe] at h; simp at h
  | some pe => simp

/-- Every local-scope entry of the loaded list certifies that a project entry
for the cwd exists, and its name occurs in neither global source mapping. -/
theorem loadServers_local (doc : Doc) (cwd : String) (s : Server)
    (hs : s ∈ loadServers doc cwd) (hl : s.source = "local") :
    (projectEntry doc cwd).isSome ∧
      s.name ∉ (gActive doc).map Prod.fst ∧ s.name ∉ (gDisabled doc).map Prod.fst := by
  have hlu : s.source ≠ "user" := by rw [hl]; decide
  rw [loadServers, loadStage4_eq] at hs
  rcases pushNew_mem _ _ _ _ _ hs with h3 | h4
  · rw [loadStage3_eq] at h3
    rcases pushNew_mem _ _ _ _ _ h3 with h2 | hnew
    · exact absurd (stage2_sources doc s h2) hlu
    · refine ⟨lActive_projectEntry doc cwd _ hnew.2.2.2, ?_, ?_⟩
      · exact fun hc => hnew.2.2.1 ((seen2_mem doc s.name).mpr (Or.inl hc))
      · exact fun hc => hnew.2.2.1 ((seen2_mem doc s.name).mpr (Or.inr hc))
  · refine ⟨lDisabled_projectEntry doc cwd _ h4.2.2.2, ?_, ?_⟩
    · exact fun hc => h4.2.2.1 ((seen3_mem doc cwd s.name).mpr (Or.inl (Or.inl hc)))
    · exact fun hc => h4.2.2.1 ((seen3_mem doc cwd s.name).mpr (Or.inl (Or.inr hc)))

-- ── Lemmas about the `saveState` rebuild ──

theorem objSet_fresh (m : List (String × Jval)) (k : String) (v : Jval)
    (h : k ∉ m.map Prod.fst) : objSet m k v = m ++ [(k, v)] := by
  induction m with
  | nil => rfl
  | cons p rest ih =>
      cases p with
      | mk k' v' =>
          simp only [List.map_cons, List.mem_cons, not_or] at h
          have hbeq : (k' == k) = false := by
            simp only [beq_eq_false_iff_ne]
            exact fun hc => h.1 hc.symm
          simp [objSet, hbeq, ih h.2]

theorem partitionServers_eq (ss : List Server) :
    ∀ act dis : List (String × Jval), (ss.map Server.name).Nodup →
    (∀ s ∈ ss, s.name ∉ act.map Prod.fst) →
    (∀ s ∈ ss, s.name ∉ dis.map Prod.fst) →
    partitionServers ss act dis =
      (act ++ (ss.filter (fun s => s.enabled)).map (fun s => (s.name, s.config)),
       dis ++ (ss.filter (fun s => !s.enabled)).map (fun s => (s.name, s.config))) := by
  induction ss with
  | nil => intro act dis _ _ _; simp [partitionServers]
  | cons s rest ih =>
      intro act dis hnd hact hdis
      rw [List.map_cons, List.nodup_cons] at hnd
      have hsname : s.name ∉ rest.map Server.name := hnd.1
      have hfresh : ∀ t ∈ rest, t.name ≠ s.name := by
        intro t ht hc
        exact hsname (hc ▸ List.mem_map_of_mem Server.name ht)
      cases he : s.enabled with
      | true =>
          rw [show partitionServers (s :: rest) act dis =
              partitionServers rest (objSet act s.name s.config) dis
              from by simp [partitionServers, he]]
          rw [ih (objSet act s.name s.config) dis hnd.2 ?_ ?_]
          · rw [objSet_fresh act s.name s.config (hact s (List.mem_cons_self _ _))]
            simp [he, List.append_assoc]
          · intro t ht
            rw [objSet_fresh act s.name s.config (hact s (List.mem_cons_self _ _))]
            simp only [List.map_append, List.mem_append, List.map_cons, List.map_nil,
              List.mem_singleton, not_or]
            exact ⟨hact t (List.mem_cons_of_mem _ ht), by simpa using hfresh t ht⟩
          · intro t ht
            exact hdis t (List.mem_cons_of_mem _ ht)
      | false =>
          rw [show partitionServers (s :: rest) act dis =
              partitionServers rest act (objSet dis s.name s.config)
              from by simp [partitionServers, he]]
          rw [ih act (objSet dis s.name s.config) hnd.2 ?_ ?_]
          · rw [objSet_fresh dis s.name s.config (hdis s (List.mem_cons_self _ _))]
            simp [he, List.append_assoc]
          · intro t ht
            exact hact t (List.mem_cons_of_mem _ ht)
          · intro t ht
            rw [objSet_fresh dis s.name s.config (hdis s (List.mem_cons_self _ _))]
            simp only [List.map_append, List.mem_append, List.map_cons, List.map_nil,
              List.mem_singleton, not_or]
            exact ⟨hdis t (List.mem_cons_of_mem _ ht), by simpa using hfresh t ht⟩

theorem filter_names_nodup (ss : List Server) (p : Server → Bool)
    (h : (ss.map Server.name).Nodup) : ((ss.filter p).map Server.name).Nodup :=
  h.sublist (List.Sublist.map Server.name (List.filter_sublist ss))

theorem partitionServers_spec (ss : List Server) (p : Server → Bool)
    (h : (ss.map Server.name).Nodup) :
    partitionServers (ss.filter p) [] [] =
      (((ss.filter p).filter (fun s => s.enabled)).map (fun s => (s.name, s.config)),
       ((ss.filter p).filter (fun s => !s.enabled)).map (fun s => (s.name, s.config))) := by
  rw [partitionServers_eq (ss.filter p) [] [] (filter_names_nodup ss p h)
    (by intro s _; simp) (by intro s _; simp)]
  simp

theorem saveGlobal_eq (ss : List Server) (doc : Doc)
    (h : (ss.map Server.name).Nodup) :
    (saveGlobal ss doc).mcpServers = some (scopeActive ss "user") ∧
      (saveGlobal ss doc).disabledMcpServers =
        (if (scopeDisabled ss "user").length > 0 then some (scopeDisabled ss "user")
          else none) := by
  unfold saveGlobal scopeActive scopeDisabled
  rw [partitionServers_spec ss (fun s => s.source == "user") h]
  exact ⟨rfl, rfl⟩

theorem lookup_setProj (ps : List (String × ProjectEntry)) (k : String)
    (x : ProjectEntry) (pe : ProjectEntry) (h : List.lookup k ps = some pe) :
    List.lookup k (setProj ps k x) = some x := by
  induction ps with
  | nil => simp [List.lookup] at h
  | cons p rest ih =>
      cases p with
      | mk k' v' =>
          by_cases hk : k' = k
          · subst hk
            simp [setProj, List.lookup]
          · have h1 : (k' == k) = false := beq_eq_false_iff_ne.mpr hk
            have h2 : (k == k') = false := beq_eq_false_iff_ne.mpr (Ne.symm hk)
            simp only [List.lookup, h2] at h
            simp [setProj, h1, List.lookup, h2, ih h]

theorem saveLocal_eq (ss : List Server) (doc : Doc) (cwd : String)
    (pe : ProjectEntry) (hpe : projectEntry doc cwd = some pe)
    (h : (ss.map Server.name).Nodup) :
    projectEntry (saveLocal ss doc cwd) cwd =
      some { pe with
             mcpServers := some (scopeActive ss "local"),
             disabledMcpServers :=
               (if (scopeDisabled ss "local").length > 0
                 then some (scopeDisabled ss "local") else none) } := by
  unfold saveLocal
  rw [hpe]
  unfold projectEntry
  simp only []
  rw [Option.getD_some]
  rw [partitionServers_spec ss (fun s => s.source == "local") h]
  exact lookup_setProj (doc.projects.getD []) (normPath cwd) _ pe hpe

-- ── The session loop only mutates `enabled` flags ──

theorem list_set_self {α : Type} (l : List α) (n : Nat) (a : α)
    (h : l[n]? = some a) : l.set n a = l := by
  induction l generalizing n with
  | nil => simp at h
  | cons x xs ih =>
      cases n with
      | zero =>
          simp only [List.getElem?_cons_zero] at h
          injection h with h
          subst h
          rfl
      | succ n =>
          simp only [List.getElem?_cons_succ] at h
          simp [List.set, ih n h]

theorem toggleCursor_sig (ss : List Server) (i : Int) :
    (toggleCursor ss i).map sig = ss.map sig := by
  unfold toggleCursor
  cases h : ss[i.toNat]? with
  | none => rfl
  | some s =>
      rw [List.map_set]
      have hs : sig { s with enabled := !s.enabled } = sig s := rfl
      rw [hs]
      have hg : (ss.map sig)[i.toNat]? = some (sig s) := by
        rw [List.getElem?_map, h]
        rfl
      exact list_set_self _ _ _ hg

theorem handleKey_sig (st : Sess) (key : String) :
    ((handleKey st key).1).servers.map sig = st.servers.map sig := by
  unfold handleKey
  repeat' split
  · rfl
  · rfl
  · rfl
  · rfl
  · rfl
  · exact toggleCursor_sig st.servers st.cursor
  · simp [sig, List.map_map, Function.comp]
  · simp [sig, List.map_map, Function.comp]
  · rfl

theorem processKeys_sig (keys : List String) : ∀ st : Sess,
    ((processKeys st keys).1).servers.map sig = st.servers.map sig := by
  induction keys with
  | nil => intro st; rfl
  | cons k rest ih =>
      intro st
      have hk := handleKey_sig st k
      unfold processKeys
      cases hh : handleKey st k with
      | mk st' ob =>
          rw [hh] at hk
          cases ob with
          | none => simpa [ih st'] using hk
          | some b => simpa using hk

theorem sig_names (S L : List Server) (h : S.map sig = L.map sig) :
    S.map Server.name = L.map Server.name := by
  have h2 : (S.map sig).map Prod.fst = (L.map sig).map Prod.fst := by rw [h]
  simpa [List.map_map, Function.comp, sig] using h2

/-- If a session-reachable list (same `sig`s as the loaded one) has a
local-scope entry, the document has a project entry for the cwd. -/
theorem local_in_sess (doc : Doc) (cwd : String) (S : List Server)
    (hsig : S.map sig = (loadServers doc cwd).map sig) (s : Server)
    (hs : s ∈ S) (hl : s.source = "local") : (projectEntry doc cwd).isSome := by
  have hmem : sig s ∈ (loadServers doc cwd).map sig :=
    hsig ▸ List.mem_map_of_mem sig hs
  obtain ⟨t, ht, hts⟩ := List.mem_map.mp hmem
  have hsrc : t.source = "local" := by
    have := congrArg (fun x => x.2.1) hts
    simpa [sig, hl] using this
  exact (loadServers_local doc cwd t ht hsrc).1

-- ── Assembled description of the saved document ──

theorem getD_lenif (l : List (String × Jval)) :
    (if l.length > 0 then some l else none).getD [] = l := by
  cases l <;> simp

theorem saveLocal_globals (ss : List Server) (d : Doc) (cwd : String) :
    (saveLocal ss d cwd).mcpServers = d.mcpServers ∧
      (saveLocal ss d cwd).disabledMcpServers = d.disabledMcpServers := by
  unfold saveLocal
  cases projectEntry d cwd <;> simp

/-- Field-level description of `saveState` on a list with duplicate-free
names: each scope's mappings are exactly the enabled/disabled partition. -/
theorem saveState_fields (S : List Server) (doc : Doc) (cwd : String)
    (hnodup : (S.map Server.name).Nodup) :
    (saveState S doc cwd).mcpServers = some (scopeActive S "user")
    ∧ (saveState S doc cwd).disabledMcpServers =
        (if (scopeDisabled S "user").length > 0 then some (scopeDisabled S "user")
          else none)
    ∧ (projectEntry doc cwd = none → projectEntry (saveState S doc cwd) cwd = none)
    ∧ (∀ pe, projectEntry doc cwd = some pe →
        projectEntry (saveState S doc cwd) cwd =
          some { pe with
                 mcpServers := some (scopeActive S "local"),
                 disabledMcpServers :=
                   (if (scopeDisabled S "local").length > 0
                     then some (scopeDisabled S "local") else none) }) := by
  obtain ⟨hga, hgd⟩ := saveGlobal_eq S doc hnodup
  refine ⟨?_, ?_, ?_, ?_⟩
  · rw [saveState, (saveLocal_globals S (saveGlobal S doc) cwd).1, hga]
  · rw [saveState, (saveLocal_globals S (saveGlobal S doc) cwd).2, hgd]
  · intro h
    have h2 : projectEntry (saveGlobal S doc) cwd = none := by
      rw [projectEntry_saveGlobal]; exact h
    rw [saveState, saveLocal_of_none _ _ _ h2]
    exact h2
  · intro pe hpe
    have h2 : projectEntry (saveGlobal S doc) cwd = some pe := by
      rw [projectEntry_saveGlobal]; exact hpe
    rw [saveState]
    exact saveLocal_eq S (saveGlobal S doc) cwd pe h2 hnodup

-- ── Counting entries by name ──

theorem objLookup_of_mem (m : List (String × Jval)) (k : String) (v : Jval)
    (hnd : (m.map Prod.fst).Nodup) (h : (k, v) ∈ m) : List.lookup k m = some v := by
  induction m with
  | nil => cases h
  | cons p rest ih =>
      cases p with
      | mk k' v' =>
          rw [List.map_cons, List.nodup_cons] at hnd
          rcases List.mem_cons.mp h with heq | hmem
          · have h1 : k = k' := congrArg Prod.fst heq
            have h2 : v = v' := congrArg Prod.snd heq
            subst h1
            subst h2
            simp [List.lookup]
          · have hne : (k == k') = false := by
              refine beq_eq_false_iff_ne.mpr ?_
              intro hc
              subst hc
              exact hnd.1 (List.mem_map.mpr ⟨(k, v), hmem, rfl⟩)
            simp [List.lookup, hne, ih hnd.2 hmem]

theorem keys_mem_exists (m : List (String × Jval)) (n : String)
    (h : n ∈ m.map Prod.fst) : ∃ v, (n, v) ∈ m := by
  obtain ⟨p, hp, hfst⟩ := List.mem_map.mp h
  refine ⟨p.2, ?_⟩
  rw [← hfst]
  simpa using hp

theorem countName_le_one (L : List Server) (h : (L.map Server.name).Nodup)
    (n : String) : countName n L ≤ 1 := by
  induction L with
  | nil => simp [countName]
  | cons s rest ih =>
      rw [List.map_cons, List.nodup_cons] at h
      by_cases hn : s.name = n
      · have hrest : rest.filter (fun t => t.name == n) = [] := by
          rw [List.filter_eq_nil_iff]
          intro t ht hc
          rw [beq_iff_eq] at hc
          exact h.1 (List.mem_map.mpr ⟨t, ht, by rw [hc, hn]⟩)
        unfold countName
        rw [List.filter_cons]
        simp [hn, hrest, countName]
      · unfold countName
        rw [List.filter_cons]
        simpa [hn, countName] using ih h.2

theorem countName_ge_one (L : List Server) (n : String) (s : Server)
    (hs : s ∈ L) (hn : s.name = n) : 1 ≤ countName n L := by
  unfold countName
  have : s ∈ L.filter (fun t => t.name == n) :=
    List.mem_filter.mpr ⟨hs, by simp [hn]⟩
  exact List.length_pos_of_mem this

theorem countName_eq_one (L : List Server) (h : (L.map Server.name).Nodup)
    (n : String) (s : Server) (hs : s ∈ L) (hn : s.name = n) :
    countName n L = 1 :=
  Nat.le_antisymm (countName_le_one L h n) (countName_ge_one L n s hs hn)

theorem name_unique (L : List Server) (n : String) (h1 : countName n L = 1)
    (s t : Server) (hs : s ∈ L) (hsn : s.name = n) (ht : t ∈ L)
    (htn : t.name = n) : s = t := by
  unfold countName at h1
  obtain ⟨a, ha⟩ := List.length_eq_one.mp h1
  have hsf : s ∈ L.filter (fun u => u.name == n) :=
    List.mem_filter.mpr ⟨hs, by simp [hsn]⟩
  have htf : t ∈ L.filter (fun u => u.name == n) :=
    List.mem_filter.mpr ⟨ht, by simp [htn]⟩
  rw [ha] at hsf htf
  rw [List.mem_singleton] at hsf htf
  rw [hsf, htf]

-- ── Monotonicity of the loader stages ──

theorem mem_stage2_of_stage1 (doc : Doc) (s : Server)
    (h : s ∈ (loadStage1 doc).servers) : s ∈ (loadStage2 doc).servers := by
  rw [loadStage2_eq]
  obtain ⟨t, ht⟩ := pushNew_mono "user" false (gDisabled doc) (loadStage1 doc)
  rw [ht]
  exact List.mem_append_left _ h

theorem mem_stage3_of_stage2 (doc : Doc) (cwd : String) (s : Server)
    (h : s ∈ (loadStage2 doc).servers) : s ∈ (loadStage3 doc cwd).servers := by
  rw [loadStage3_eq]
  obtain ⟨t, ht⟩ := pushNew_mono "local" true (lActive doc cwd) (loadStage2 doc)
  rw [ht]
  exact List.mem_append_left _ h

theorem mem_load_of_stage3 (doc : Doc) (cwd : String) (s : Server)
    (h : s ∈ (loadStage3 doc cwd).servers) : s ∈ loadServers doc cwd := by
  rw [loadServers, loadStage4_eq]
  obtain ⟨t, ht⟩ := pushNew_mono "local" false (lDisabled doc cwd) (loadStage3 doc cwd)
  rw [ht]
  exact List.mem_append_left _ h

/-- A name in the global active mapping yields a loaded entry: enabled, user
scope, config taken from that mapping. -/
theorem loadServers_global_entry (doc : Doc) (cwd : String) (n : String)
    (hA : objOk (gActive doc)) (hn : n ∈ (gActive doc).map Prod.fst) :
    ∃ c, List.lookup n (gActive doc) = some c ∧
      (⟨n, "user", true, c⟩ : Server) ∈ loadServers doc cwd := by
  obtain ⟨c, hc⟩ := keys_mem_exists _ _ hn
  refine ⟨c, objLookup_of_mem _ _ _ hA hc, ?_⟩
  have h1 : (⟨n, "user", true, c⟩ : Server) ∈ (loadStage1 doc).servers := by
    rw [loadStage1_eq]
    exact List.mem_map_of_mem _ hc
  exact mem_load_of_stage3 doc cwd _
    (mem_stage3_of_stage2 doc cwd _ (mem_stage2_of_stage1 doc _ h1))

/-- A name in the local active mapping that occurs in neither global mapping
yields a loaded entry: enabled, local scope, config from that mapping. -/
theorem loadServers_localActive_entry (doc : Doc) (cwd : String) (n : String)
    (hC : objOk (lActive doc cwd))
    (hnA : n ∉ (gActive doc).map Prod.fst) (hnD : n ∉ (gDisabled doc).map Prod.fst)
    (hn : n ∈ (lActive doc cwd).map Prod.fst) :
    ∃ c, List.lookup n (lActive doc cwd) = some c ∧
      (⟨n, "local", true, c⟩ : Server) ∈ loadServers doc cwd := by
  obtain ⟨c, hc⟩ := keys_mem_exists _ _ hn
  refine ⟨c, objLookup_of_mem _ _ _ hC hc, ?_⟩
  have hseen : n ∉ (loadStage2 doc).seen := by
    intro hx
    rcases (seen2_mem doc n).mp hx with h1 | h2
    · exact hnA h1
    · exact hnD h2
  have h3 : (⟨n, "local", true, c⟩ : Server) ∈ (loadStage3 doc cwd).servers := by
    rw [loadStage3_eq]
    exact pushNew_adds "local" true (lActive doc cwd) n c hC hc _ hseen
  exact mem_load_of_stage3 doc cwd _ h3

-- ── C10: one shared namespace across scopes ──

/-- C10: the loader output never has two entries with the same name, even
across scopes, and a name present in either global mapping suppresses any
local entry of the same name entirely. -/
theorem loader_shared_namespace (doc : Doc) (cwd : String) (h : DocOk doc cwd) :
    ((loadServers doc cwd).map Server.name).Nodup
    ∧ ∀ s ∈ loadServers doc cwd, s.source = "local" →
        s.name ∉ (gActive doc).map Prod.fst ∧
          s.name ∉ (gDisabled doc).map Prod.fst := by
  refine ⟨loadServers_names_nodup doc cwd h.1, ?_⟩
  intro s hs hl
  exact ⟨(loadServers_local doc cwd s hs hl).2.1, (loadServers_local doc cwd s hs hl).2.2⟩

theorem loader_shared_namespace_witness :
    ((loadServers docC7 "/p").map Server.name).Nodup :=
  (loader_shared_namespace docC7 "/p" (by decide)).1

-- ── C2: saving writes back exactly the loaded entries ──

/-- C2: after any key sequence, the saved document's mappings are exactly the
loaded `(name, scope)` set partitioned by the current `enabled` flags, with
configs unchanged (the in-session list keeps the loaded `sig`s pointwise). -/
theorem save_exact_partition (doc : Doc) (cwd : String) (keys : List String)
    (h : DocOk doc cwd) :
    (sessServers doc cwd keys).map sig = (loadServers doc cwd).map sig
    ∧ (saveState (sessServers doc cwd keys) doc cwd).mcpServers =
        some (scopeActive (sessServers doc cwd keys) "user")
    ∧ (saveState (sessServers doc cwd keys) doc cwd).disabledMcpServers.getD [] =
        scopeDisabled (sessServers doc cwd keys) "user"
    ∧ (∀ pe, projectEntry (saveState (sessServers doc cwd keys) doc cwd) cwd = some pe →
        pe.mcpServers = some (scopeActive (sessServers doc cwd keys) "local")
        ∧ pe.disabledMcpServers.getD [] = scopeDisabled (sessServers doc cwd keys) "local")
    ∧ ((∃ s ∈ sessServers doc cwd keys, s.source = "local") →
        (projectEntry (saveState (sessServers doc cwd keys) doc cwd) cwd).isSome) := by
  have hsig : (sessServers doc cwd keys).map sig = (loadServers doc cwd).map sig :=
    processKeys_sig keys ⟨0, loadServers doc cwd⟩
  have hnodup : ((sessServers doc cwd keys).map Server.name).Nodup := by
    rw [sig_names _ _ hsig]
    exact loadServers_names_nodup doc cwd h.1
  obtain ⟨hga, hgd, hnone, hsome⟩ := saveState_fields (sessServers doc cwd keys) doc cwd hnodup
  refine ⟨hsig, hga, ?_, ?_, ?_⟩
  · rw [hgd]
    exact getD_lenif _
  · intro pe hpe
    cases hp : projectEntry doc cwd with
    | none => rw [hnone hp] at hpe; cases hpe
    | some pe0 =>
        rw [hsome pe0 hp] at hpe
        injection hpe with hpe
        subst hpe
        exact ⟨rfl, getD_lenif _⟩
  · rintro ⟨s, hs, hl⟩
    have hps := local_in_sess doc cwd _ hsig s hs hl
    cases hp : projectEntry doc cwd with
    | none => rw [hp] at hps; simp at hps
    | some pe0 => rw [hsome pe0 hp]; rfl

theorem save_exact_partition_witness :
    (saveState (sessServers docC7 "/p" [" "]) docC7 "/p").mcpServers =
      some (scopeActive (sessServers docC7 "/p" [" "]) "user") :=
  (save_exact_partition docC7 "/p" [" "] (by decide)).2.1

-- ── C6: all-on followed by save ──

theorem handleKey_allOn (st : Sess) :
    (handleKey st "a").1 =
      { st with servers := st.servers.map (fun s => { s with enabled := true }) } := rfl

theorem allOnServers_enabled (doc : Doc) (cwd : String) (keys : List String) :
    ∀ s ∈ allOnServers doc cwd keys, s.enabled = true := by
  intro s hs
  rw [allOnServers, handleKey_allOn] at hs
  obtain ⟨t, _, rfl⟩ := List.mem_map.mp hs
  rfl

theorem allOnServers_sig (doc : Doc) (cwd : String) (keys : List String) :
    (allOnServers doc cwd keys).map sig = (loadServers doc cwd).map sig := by
  rw [allOnServers]
  rw [handleKey_sig (processKeys ⟨0, loadServers doc cwd⟩ keys).1 "a"]
  exact processKeys_sig keys ⟨0, loadServers doc cwd⟩

theorem scopeDisabled_nil (S : List Server) (src : String)
    (hall : ∀ s ∈ S, s.enabled = true) : scopeDisabled S src = [] := by
  unfold scopeDisabled
  have hf : (S.filter (fun s => s.source == src)).filter (fun s => !s.enabled) = [] := by
    rw [List.filter_eq_nil_iff]
    intro t ht
    have := hall t (List.mem_of_mem_filter ht)
    simp [this]
  rw [hf]
  rfl

theorem mem_scopeActive (S : List Server) (src : String) (s : Server)
    (hs : s ∈ S) (hsrc : s.source = src) (hen : s.enabled = true) :
    (s.name, s.config) ∈ scopeActive S src := by
  unfold scopeActive
  refine List.mem_map_of_mem _ (List.mem_filter.mpr ⟨List.mem_filter.mpr ⟨hs, ?_⟩, ?_⟩)
  · simp [hsrc]
  · simp [hen]

/-- C6: pressing all-on and saving removes the disabled mapping key for every
scope and places every entry of a scope in that scope's active mapping. -/
theorem all_on_save (doc : Doc) (cwd : String) (keys : List String)
    (h : DocOk doc cwd) :
    (saveState (allOnServers doc cwd keys) doc cwd).disabledMcpServers = none
    ∧ (∀ s ∈ allOnServers doc cwd keys, s.source = "user" →
        (s.name, s.config) ∈ (saveState (allOnServers doc cwd keys) doc cwd).mcpServers.getD [])
    ∧ (∀ pe, projectEntry (saveState (allOnServers doc cwd keys) doc cwd) cwd = some pe →
        pe.disabledMcpServers = none
        ∧ ∀ s ∈ allOnServers doc cwd keys, s.source = "local" →
            (s.name, s.config) ∈ pe.mcpServers.getD [])
    ∧ ((∃ s ∈ allOnServers doc cwd keys, s.source = "local") →
        (projectEntry (saveState (allOnServers doc cwd keys) doc cwd) cwd).isSome) := by
  have hsig := allOnServers_sig doc cwd keys
  have hall := allOnServers_enabled doc cwd keys
  have hnodup : ((allOnServers doc cwd keys).map Server.name).Nodup := by
    rw [sig_names _ _ hsig]
    exact loadServers_names_nodup doc cwd h.1
  obtain ⟨hga, hgd, hnone, hsome⟩ := saveState_fields (allOnServers doc cwd keys) doc cwd hnodup
  have hdisU : scopeDisabled (allOnServers doc cwd keys) "user" = [] :=
    scopeDisabled_nil _ _ hall
  have hdisL : scopeDisabled (allOnServers doc cwd keys) "local" = [] :=
    scopeDisabled_nil _ _ hall
  refine ⟨?_, ?_, ?_, ?_⟩
  · rw [hgd, hdisU]
    rfl
  · intro s hs hsrc
    rw [hga]
    exact mem_scopeActive _ _ s hs hsrc (hall s hs)
  · intro pe hpe
    cases hp : projectEntry doc cwd with
    | none => rw [hnone hp] at hpe; cases hpe
    | some pe0 =>
        rw [hsome pe0 hp] at hpe
        injection hpe with hpe
        subst hpe
        refine ⟨by rw [hdisL]; rfl, ?_⟩
        intro s hs hsrc
        show (s.name, s.config) ∈ (some (scopeActive (allOnServers doc cwd keys) "local")).getD []
        exact mem_scopeActive _ _ s hs hsrc (hall s hs)
  · rintro ⟨s, hs, hl⟩
    have hps := local_in_sess doc cwd _ hsig s hs hl
    cases hp : projectEntry doc cwd with
    | none => rw [hp] at hps; simp at hps
    | some pe0 => rw [hsome pe0 hp]; rfl

theorem all_on_save_witness :
    (saveState (allOnServers docC1x "/p" []) docC1x "/p").disabledMcpServers = none :=
  (all_on_save docC1x "/p" [] (by decide)).1

-- ── C3: dedup within a scope-pair ──

/-- C3 (counterexample): on `docC3x` the name `n` occurs in both local-scope
mappings, yet the single loaded entry is the disabled global one — the claim
"enabled is taken from the (scope's) active mapping" fails as stated, because
an earlier global source already claimed the name. -/
theorem dedup_counterexample :
    ¬ claimDedupActiveWins docC3x "/p" (lActive docC3x "/p") (lDisabled docC3x "/p") "n" := by
  intro h
  have h1 : "n" ∈ (lActive docC3x "/p").map Prod.fst := by decide
  have h2 : "n" ∈ (lDisabled docC3x "/p").map Prod.fst := by decide
  have hmem : (⟨"n", "user", false, Jval.num 0⟩ : Server) ∈ loadServers docC3x "/p" := by
    rw [show loadServers docC3x "/p" = [⟨"n", "user", false, Jval.num 0⟩] from rfl]
    exact List.mem_cons_self _ _
  have hf := ((h h1 h2).2 _ hmem rfl).1
  exact Bool.false_ne_true hf

/-- C3 (amended): within a scope-pair the active mapping wins over the
disabled one, provided no earlier-visited source outside the scope-pair
already contains the name (always true for the global pair, which is visited
first; for the local pair the name must be absent from both global mappings):
exactly one entry is created, enabled, with the active mapping's config. -/
theorem dedup_active_wins (doc : Doc) (cwd : String) (h : DocOk doc cwd) :
    (∀ n, n ∈ (gActive doc).map Prod.fst → n ∈ (gDisabled doc).map Prod.fst →
      countName n (loadServers doc cwd) = 1 ∧
      ∀ s ∈ loadServers doc cwd, s.name = n →
        s.enabled = true ∧ List.lookup n (gActive doc) = some s.config)
    ∧ (∀ n, n ∉ (gActive doc).map Prod.fst → n ∉ (gDisabled doc).map Prod.fst →
        n ∈ (lActive doc cwd).map Prod.fst → n ∈ (lDisabled doc cwd).map Prod.fst →
        countName n (loadServers doc cwd) = 1 ∧
        ∀ s ∈ loadServers doc cwd, s.name = n →
          s.enabled = true ∧ List.lookup n (lActive doc cwd) = some s.config) := by
  have hnd := loadServers_names_nodup doc cwd h.1
  constructor
  · intro n hnA hnD
    obtain ⟨c, hcl, hcm⟩ := loadServers_global_entry doc cwd n h.1 hnA
    have hcount := countName_eq_one _ hnd n _ hcm rfl
    refine ⟨hcount, ?_⟩
    intro s hs hsn
    have hse : s = ⟨n, "user", true, c⟩ :=
      name_unique _ n hcount s _ hs hsn hcm rfl
    rw [hse]
    exact ⟨rfl, hcl⟩
  · intro n hnA hnD hnC hnD2
    obtain ⟨c, hcl, hcm⟩ :=
      loadServers_localActive_entry doc cwd n h.2.2.1 hnA hnD hnC
    have hcount := countName_eq_one _ hnd n _ hcm rfl
    refine ⟨hcount, ?_⟩
    intro s hs hsn
    have hse : s = ⟨n, "local", true, c⟩ :=
      name_unique _ n hcount s _ hs hsn hcm rfl
    rw [hse]
    exact ⟨rfl, hcl⟩

theorem dedup_active_wins_witness :
    countName "a" (loadServers docC1x "/p") = 1 := by
  have h := (dedup_active_wins docC1x "/p" (by decide)).1 "a" (by decide) (by decide)
  exact h.1

-- ── The loader under jointly duplicate-free sources ──

theorem pushNew_fresh (src : String) (en : Bool) (m : List (String × Jval)) :
    ∀ st : LoadState, (m.map Prod.fst).Nodup →
    (∀ x ∈ m.map Prod.fst, x ∉ st.seen) →
    pushNew src en st m =
      ⟨st.servers ++ entriesOf m src en, st.seen ++ m.map Prod.fst⟩ := by
  induction m with
  | nil => intro st _ _; simp [pushNew, entriesOf]
  | cons p rest ih =>
      intro st hnd hdisj
      cases p with
      | mk name config =>
          have hm : name ∉ st.seen := hdisj name (by simp)
          rw [pushNew_cons_new src en name config rest st hm]
          rw [List.map_cons, List.nodup_cons] at hnd
          have hforall : ∀ x ∈ rest.map Prod.fst,
              x ∉ (st.push ⟨name, src, en, config⟩).seen := by
            intro x hx
            simp only [LoadState.push, List.mem_append, List.mem_singleton, not_or]
            refine ⟨hdisj x (by simp [hx]), ?_⟩
            intro hc
            subst hc
            exact hnd.1 hx
          rw [ih _ hnd.2 hforall]
          simp [LoadState.push, entriesOf, List.append_assoc]

/-- When the four source key lists are jointly duplicate-free, nothing is
suppressed: the loaded list is the plain concatenation of the four sources. -/
theorem loadServers_of_separated (doc : Doc) (cwd : String)
    (hsep : sourcesSeparated doc cwd) :
    loadServers doc cwd =
      entriesOf (gActive doc) "user" true ++ entriesOf (gDisabled doc) "user" false ++
        entriesOf (lActive doc cwd) "local" true ++
        entriesOf (lDisabled doc cwd) "local" false := by
  obtain ⟨h3, hD, hdisjD⟩ := List.nodup_append.mp hsep
  obtain ⟨h2, hC, hdisjC⟩ := List.nodup_append.mp h3
  obtain ⟨hA, hB, hdisjB⟩ := List.nodup_append.mp h2
  have hs2 : loadStage2 doc =
      ⟨entriesOf (gActive doc) "user" true ++ entriesOf (gDisabled doc) "user" false,
        (gActive doc).map Prod.fst ++ (gDisabled doc).map Prod.fst⟩ := by
    rw [loadStage2_eq, loadStage1_eq]
    exact pushNew_fresh "user" false (gDisabled doc) _ hB
      (fun x hx hc => hdisjB hc hx)
  have hs3 : loadStage3 doc cwd =
      ⟨entriesOf (gActive doc) "user" true ++ entriesOf (gDisabled doc) "user" false ++
          entriesOf (lActive doc cwd) "local" true,
        (gActive doc).map Prod.fst ++ (gDisabled doc).map Prod.fst ++
          (lActive doc cwd).map Prod.fst⟩ := by
    rw [loadStage3_eq, hs2]
    exact pushNew_fresh "local" true (lActive doc cwd) _ hC
      (fun x hx hc => hdisjC hc hx)
  have hs4 : loadStage4 doc cwd =
      ⟨entriesOf (gActive doc) "user" true ++ entriesOf (gDisabled doc) "user" false ++
          entriesOf (lActive doc cwd) "local" true ++
          entriesOf (lDisabled doc cwd) "local" false,
        (gActive doc).map Prod.fst ++ (gDisabled doc).map Prod.fst ++
          (lActive doc cwd).map Prod.fst ++ (lDisabled doc cwd).map Prod.fst⟩ := by
    rw [loadStage4_eq, hs3]
    exact pushNew_fresh "local" false (lDisabled doc cwd) _ hD
      (fun x hx hc => hdisjD hc hx)
  rw [loadServers, hs4]

theorem entriesOf_names (m : List (String × Jval)) (src : String) (en : Bool) :
    (entriesOf m src en).map Server.name = m.map Prod.fst := by
  unfold entriesOf
  rw [List.map_map]
  rfl

theorem entriesOf_filter_src_eq (m : List (String × Jval)) (src : String) (en : Bool) :
    (entriesOf m src en).filter (fun s => s.source == src) = entriesOf m src en := by
  rw [List.filter_eq_self]
  intro s hs
  simp [(entriesOf_mem m src en s hs).1]

theorem entriesOf_filter_src_ne (m : List (String × Jval)) (src : String) (en : Bool)
    (q : String) (h : src ≠ q) :
    (entriesOf m src en).filter (fun s => s.source == q) = [] := by
  rw [List.filter_eq_nil_iff]
  intro s hs
  simp [(entriesOf_mem m src en s hs).1, h]

theorem entriesOf_filter_en_true (m : List (String × Jval)) (src : String) :
    (entriesOf m src true).filter (fun s => s.enabled) = entriesOf m src true := by
  rw [List.filter_eq_self]
  intro s hs
  exact (entriesOf_mem m src true s hs).2.1

theorem entriesOf_filter_en_false (m : List (String × Jval)) (src : String) :
    (entriesOf m src false).filter (fun s => s.enabled) = [] := by
  rw [List.filter_eq_nil_iff]
  intro s hs
  simp [(entriesOf_mem m src false s hs).2.1]

theorem entriesOf_filter_dis_true (m : List (String × Jval)) (src : String) :
    (entriesOf m src true).filter (fun s => !s.enabled) = [] := by
  rw [List.filter_eq_nil_iff]
  intro s hs
  simp [(entriesOf_mem m src true s hs).2.1]

theorem entriesOf_filter_dis_false (m : List (String × Jval)) (src : String) :
    (entriesOf m src false).filter (fun s => !s.enabled) = entriesOf m src false := by
  rw [List.filter_eq_self]
  intro s hs
  simp [(entriesOf_mem m src false s hs).2.1]

theorem entriesOf_pairs (m : List (String × Jval)) (src : String) (en : Bool) :
    (entriesOf m src en).map (fun s => (s.name, s.config)) = m := by
  unfold entriesOf
  rw [List.map_map]
  have hc : ((fun s => (s.name, s.config)) ∘
      fun p : String × Jval => (⟨p.1, src, en, p.2⟩ : Server)) = fun p => (p.1, p.2) := rfl
  rw [hc]
  simp

theorem scopeActive_user_of_separated (doc : Doc) (cwd : String)
    (hsep : sourcesSeparated doc cwd) :
    scopeActive (loadServers doc cwd) "user" = gActive doc := by
  rw [loadServers_of_separated doc cwd hsep]
  unfold scopeActive
  simp only [List.filter_append, entriesOf_filter_src_eq,
    entriesOf_filter_src_ne (lActive doc cwd) "local" true "user" (by decide),
    entriesOf_filter_src_ne (lDisabled doc cwd) "local" false "user" (by decide),
    List.filter_nil, List.append_nil, List.nil_append,
    entriesOf_filter_en_true, entriesOf_filter_en_false,
    List.map_append, List.map_nil, entriesOf_pairs]

theorem scopeDisabled_user_of_separated (doc : Doc) (cwd : String)
    (hsep : sourcesSeparated doc cwd) :
    scopeDisabled (loadServers doc cwd) "user" = gDisabled doc := by
  rw [loadServers_of_separated doc cwd hsep]
  unfold scopeDisabled
  simp only [List.filter_append, entriesOf_filter_src_eq,
    entriesOf_filter_src_ne (lActive doc cwd) "local" true "user" (by decide),
    entriesOf_filter_src_ne (lDisabled doc cwd) "local" false "user" (by decide),
    List.filter_nil, List.append_nil, List.nil_append,
    entriesOf_filter_dis_true, entriesOf_filter_dis_false,
    List.map_append, List.map_nil, entriesOf_pairs]

theorem scopeActive_local_of_separated (doc : Doc) (cwd : String)
    (hsep : sourcesSeparated doc cwd) :
    scopeActive (loadServers doc cwd) "local" = lActive doc cwd := by
  rw [loadServers_of_separated doc cwd hsep]
  unfold scopeActive
  simp only [List.filter_append, entriesOf_filter_src_eq,
    entriesOf_filter_src_ne (gActive doc) "user" true "local" (by decide),
    entriesOf_filter_src_ne (gDisabled doc) "user" false "local" (by decide),
    List.filter_nil, List.append_nil, List.nil_append,
    entriesOf_filter_en_true, entriesOf_filter_en_false,
    List.map_append, List.map_nil, entriesOf_pairs]

theorem scopeDisabled_local_of_separated (doc : Doc) (cwd : String)
    (hsep : sourcesSeparated doc cwd) :
    scopeDisabled (loadServers doc cwd) "local" = lDisabled doc cwd := by
  rw [loadServers_of_separated doc cwd hsep]
  unfold scopeDisabled
  simp only [List.filter_append, entriesOf_filter_src_eq,
    entriesOf_filter_src_ne (gActive doc) "user" true "local" (by decide),
    entriesOf_filter_src_ne (gDisabled doc) "user" false "local" (by decide),
    List.filter_nil, List.append_nil, List.nil_append,
    entriesOf_filter_dis_true, entriesOf_filter_dis_false,
    List.map_append, List.map_nil, entriesOf_pairs]

-- ── C1: load / save round-trip ──

/-- C1 (counterexample): on `docC1x`, where `a` occurs in both global
mappings, the round-trip drops the disabled occurrence of `a`: the claim
fails as stated for this configuration document. -/
theorem roundtrip_counterexample : ¬ roundTripOK docC1x "/p" := by
  intro h
  have h2 := h.2.1 "a"
  rw [show List.lookup "a" (gDisabled docC1x) = some (Jval.num 2) from rfl] at h2
  rw [show List.lookup "a"
      (gDisabled (saveState (loadServers docC1x "/p") docC1x "/p")) = none from rfl] at h2
  exact Option.noConfusion h2

/-- C1 (amended): for every document whose four source mappings are jointly
duplicate-free (no name occurs twice anywhere across the four mappings),
loading, toggling nothing and saving reproduces the same active/disabled
partitioning as the original, for both scopes, up to key order. -/
theorem load_save_roundtrip (doc : Doc) (cwd : String)
    (hsep : sourcesSeparated doc cwd) : roundTripOK doc cwd := by
  have hnames : (loadServers doc cwd).map Server.name =
      (gActive doc).map Prod.fst ++ (gDisabled doc).map Prod.fst ++
        (lActive doc cwd).map Prod.fst ++ (lDisabled doc cwd).map Prod.fst := by
    rw [loadServers_of_separated doc cwd hsep]
    rw [List.map_append, List.map_append, List.map_append]
    rw [entriesOf_names, entriesOf_names, entriesOf_names, entriesOf_names]
  have hnodup : ((loadServers doc cwd).map Server.name).Nodup := by
    rw [hnames]
    exact hsep
  obtain ⟨hga, hgd, hnone, hsome⟩ :=
    saveState_fields (loadServers doc cwd) doc cwd hnodup
  have e1 : gActive (saveState (loadServers doc cwd) doc cwd) = gActive doc := by
    unfold gActive
    rw [hga, Option.getD_some, scopeActive_user_of_separated doc cwd hsep]
    rfl
  have e2 : gDisabled (saveState (loadServers doc cwd) doc cwd) = gDisabled doc := by
    unfold gDisabled
    rw [hgd, getD_lenif, scopeDisabled_user_of_separated doc cwd hsep]
    rfl
  cases hpe : projectEntry doc cwd with
  | none =>
      have hd := hnone hpe
      have e3 : lActive (saveState (loadServers doc cwd) doc cwd) cwd =
          lActive doc cwd := by
        unfold lActive
        rw [hd, hpe]
      have e4 : lDisabled (saveState (loadServers doc cwd) doc cwd) cwd =
          lDisabled doc cwd := by
        unfold lDisabled
        rw [hd, hpe]
      exact ⟨fun k => by rw [e1], fun k => by rw [e2],
        fun k => by rw [e3], fun k => by rw [e4]⟩
  | some pe =>
      have hd := hsome pe hpe
      have e3 : lActive (saveState (loadServers doc cwd) doc cwd) cwd =
          lActive doc cwd := by
        have h1 : lActive (saveState (loadServers doc cwd) doc cwd) cwd =
            scopeActive (loadServers doc cwd) "local" := by
          unfold lActive
          rw [hd]
          rfl
        rw [h1, scopeActive_local_of_separated doc cwd hsep]
      have e4 : lDisabled (saveState (loadServers doc cwd) doc cwd) cwd =
          lDisabled doc cwd := by
        have h1 : lDisabled (saveState (loadServers doc cwd) doc cwd) cwd =
            (if (scopeDisabled (loadServers doc cwd) "local").length > 0
              then some (scopeDisabled (loadServers doc cwd) "local") else none).getD [] := by
          unfold lDisabled
          rw [hd]
          rfl
        rw [h1, getD_lenif, scopeDisabled_local_of_separated doc cwd hsep]
      exact ⟨fun k => by rw [e1], fun k => by rw [e2],
        fun k => by rw [e3], fun k => by rw [e4]⟩

theorem load_save_roundtrip_witness : roundTripOK docC7 "/p" :=
  load_save_roundtrip docC7 "/p" (by decide)
